import Mathlib

/-!
Verification development for the marvel-multiverse system plugin.

This file gives a shallow embedding of the two source files:

* `src/module/dice/damage-roll.mjs` — the `DamageRoll` subclass of the host's
  `Roll`: formula-term preprocessing (`preprocessFormula`), fantastic-hit
  configuration (`configureDamage`), construction, `fromData`, and the
  error-propagation skeleton of the static `toMessage`.
* `src/unnamed/part_000` — `MarvelMultiverseWeapon.defineSchema`, the weapon
  item field list.

Host (Foundry) data is modelled as follows.  A parsed roll term is one of the
host's term classes: `DiceTerm` (number, faces, modifier text, per-term
options), `NumericTerm`, `OperatorTerm`, `StringTerm`, `ParentheticalTerm` and
`FunctionTerm`.  Deterministic parenthetical/function terms carry the total
that `term.evaluate().total` would produce (restricted to naturals, the domain
the merging code is written for).  The host's top-level formula parser is
external, so constructors take the already-parsed term list; the small
formulas synthesized *inside* `preprocessFormula` (shapes `NdX`, `dX`,
`NdXmods`) are parsed by the concrete `parse1` below, which follows the host's
greedy number-`d`-faces-modifiers reading.  `DiceTerm.alter(multiply, add)`
follows the host implementation: if `add` is truthy the count is increased
first, then if `multiply` is truthy the count is multiplied.
-/

/-- Per-term options bag; `baseNumber` records the pre-scaling dice count and
`fantastic` marks a term scaled by a fantastic hit. -/
structure TermOptions where
  baseNumber : Option Nat := none
  fantastic : Bool := false
deriving Repr, DecidableEq

/-- A parsed roll term, mirroring the host's term classes used by the code. -/
inductive Term where
  | dice (number faces : Nat) (modifiers : String) (options : TermOptions)
  | num (number : Nat) (options : TermOptions)
  | op (operator : String)
  | str (text : String)
  | paren (total : Nat) (deterministic : Bool)
  | func (total : Nat) (deterministic : Bool)
deriving Repr, DecidableEq

/-- Options bag of a `DamageRoll`.  `fantastic = none` models the option being
`undefined`; `fantasticBonusDice = 0` models it absent/falsy;
`fantasticBonusDamage` carries the term list the host parser would produce for
the extra-damage formula (`none` for an absent/empty string). -/
structure RollOptions where
  fantastic : Option Bool := none
  fantasticMultiplier : Option Nat := none
  fantasticBonusDice : Nat := 0
  multiplyNumeric : Bool := false
  powerfulfantastic : Bool := false
  fantasticBonusDamage : Option (List Term) := none
  preprocessed : Bool := false
  configured : Bool := false
deriving Repr, DecidableEq

/-- State of a `DamageRoll`: its term list, the compiled `_formula`, and the
options bag. -/
structure DamageRoll where
  terms : List Term
  formula : String
  options : RollOptions
deriving Repr, DecidableEq

/-- Test of the regexp `^d\d+` (shorthand die such as `d6`): the text starts
with `d` followed by at least one digit. -/
def reShorthand (s : String) : Bool :=
  match s.data with
  | 'd' :: c :: _ => c.isDigit
  | _ => false

/-- Match of the anchored regexp `^[0-9]*d$`: digits (possibly none) followed
by a final `d`. -/
def reNumD (s : String) : Bool :=
  s.data.dropWhile Char.isDigit == ['d']

/-- Match of the anchored regexp `^d[0-9]*$`: a leading `d` followed only by
digits (possibly none). -/
def reDNum (s : String) : Bool :=
  match s.data with
  | 'd' :: cs => cs.all Char.isDigit
  | _ => false

/-- Numeric value of a string of decimal digits. -/
def natOfDigits (cs : List Char) : Nat :=
  cs.foldl (fun a c => 10 * a + (c.toNat - 48)) 0

/-- First term of the host's parse of a small synthesized formula
(`new Roll(formula).terms[0]`): greedy leading digits, a `d`, greedy face
digits, and the remainder as dice modifiers; a missing dice count defaults to
1; anything not of that shape stays a string term. -/
def parse1 (s : String) : Term :=
  match s.data.dropWhile Char.isDigit with
  | 'd' :: r2 =>
    if (r2.takeWhile Char.isDigit).isEmpty then .str s
    else
      .dice (if (s.data.takeWhile Char.isDigit).isEmpty then 1
             else natOfDigits (s.data.takeWhile Char.isDigit))
        (natOfDigits (r2.takeWhile Char.isDigit))
        (String.mk (r2.dropWhile Char.isDigit)) ⟨none, false⟩
  | [] =>
    if (s.data.takeWhile Char.isDigit).isEmpty then .str s
    else .num (natOfDigits s.data) ⟨none, false⟩
  | _ => .str s

/-- JavaScript `array.splice(start, deleteCount, item)` returning the new
array. -/
def splice (l : List Term) (start deleteCount : Nat) (item : Term) : List Term :=
  l.take start ++ [item] ++ l.drop (start + deleteCount)

/-- Whether an optional term is a parenthetical term (`prevTerm instanceof
ParentheticalTerm`; an absent term is not). -/
def isParenOpt : Option Term → Bool
  | some (.paren _ _) => true
  | _ => false

/-- The third `preprocessFormula` branch: a deterministic parenthetical or
function term followed by a string term matching `^d[0-9]*$` is merged with it
into the term parsed from `total ++ text`. -/
def suffixStep (ts : List Term) (i : Nat) (total : Nat) (det : Bool)
    (nextTerm : Option Term) : List Term :=
  match nextTerm with
  | some (.str s2) =>
    if reDNum s2 then
      if det then splice ts i 2 (parse1 (Nat.repr total ++ s2)) else ts
    else ts
  | _ => ts

/-- One iteration of the `preprocessFormula` loop body at index `i` of the
current (mutating) term list, including the three else-if branches of the
source. -/
def preprocessStep (ts : List Term) (i : Nat) : List Term :=
  match ts[i]? with
  | some (.str s) =>
    if reShorthand s && !(isParenOpt (if i = 0 then none else ts[i-1]?)) then
      splice ts i 1 (parse1 ("1" ++ s))
    else ts
  | some (.paren total det) =>
    match (if i = 0 then none else ts[i-1]?) with
    | some (.str p) =>
      if reNumD p then
        if det then
          match ts[i+1]? with
          | some (.str s2) => splice ts (i-1) 3 (parse1 (p ++ Nat.repr total ++ s2))
          | _ => splice ts (i-1) 2 (parse1 (p ++ Nat.repr total))
        else ts
      else suffixStep ts i total det ts[i+1]?
    | _ => suffixStep ts i total det ts[i+1]?
  | some (.func total det) => suffixStep ts i total det ts[i+1]?
  | _ => ts

/-- The `for ( let [i, term] of this.terms.entries() )` loop of
`preprocessFormula`: the index advances by one per iteration and is compared
against the length of the current (possibly shrunk) list.  The fuel argument
bounds the iteration count; since the list never grows, the initial length is
always enough fuel. -/
def preprocessLoop : Nat → List Term → Nat → List Term
  | 0, ts, _ => ts
  | fuel + 1, ts, i =>
    if i < ts.length then preprocessLoop fuel (preprocessStep ts i) (i + 1) else ts

/-- Rendering of a term back to formula text (the host's `term.formula`). -/
def termFormula : Term → String
  | .dice n f m _ => Nat.repr n ++ "d" ++ Nat.repr f ++ m
  | .num n _ => Nat.repr n
  | .op o => " " ++ o ++ " "
  | .str s => s
  | .paren t _ => "(" ++ Nat.repr t ++ ")"
  | .func t _ => "fn(" ++ Nat.repr t ++ ")"

/-- The host's `Roll.getFormula`: recompile a term list into formula text. -/
def getFormula (ts : List Term) : String :=
  String.join (ts.map termFormula)

/-- `DamageRoll.preprocessFormula`: run the merging loop, recompile
`_formula`, and mark `options.preprocessed`. -/
def preprocessFormula (r : DamageRoll) : DamageRoll :=
  let ts := preprocessLoop r.terms.length r.terms 0
  { terms := ts, formula := getFormula ts
    options := { r.options with preprocessed := true } }

/-- Processing of one term in the `configureDamage` loop at index `i`:
returns the updated term and the contribution added to `flatBonus`.  Dice and
numeric terms first restore `number` from `options.baseNumber` (recording it
on first contact); on a fantastic result a dice term is altered via the
host's `alter(cm, cb)` (add first, then multiply, each skipped when falsy)
and a numeric term is multiplied when `multiplyNumeric` is set. -/
def configureOne (opts : RollOptions) (i : Nat) (t : Term) : Term × Nat :=
  match t with
  | .dice n f m o =>
    let base := o.baseNumber.getD n
    if opts.fantastic = some true then
      let cm0 := opts.fantasticMultiplier.getD 2
      let contrib := if opts.powerfulfantastic then base * f else 0
      let cm := if opts.powerfulfantastic then max 1 (cm0 - 1) else cm0
      let cb := if opts.fantasticBonusDice ≠ 0 ∧ i = 0 then opts.fantasticBonusDice else 0
      let n1 := if cb ≠ 0 then base + cb else base
      let n2 := if cm ≠ 0 then n1 * cm else n1
      (.dice n2 f m ⟨some base, true⟩, contrib)
    else (.dice base f m ⟨some base, o.fantastic⟩, 0)
  | .num n o =>
    if opts.multiplyNumeric then
      let base := o.baseNumber.getD n
      if opts.fantastic = some true then
        (.num (base * opts.fantasticMultiplier.getD 2) ⟨some base, true⟩, 0)
      else (.num base ⟨some base, o.fantastic⟩, 0)
    else (.num n o, 0)
  | t => (t, 0)

/-- The `configureDamage` loop over the term list with its running index and
accumulated `flatBonus`. -/
def configureLoop (opts : RollOptions) : Nat → List Term → List Term × Nat
  | _, [] => ([], 0)
  | i, t :: rest =>
    let p := configureOne opts i t
    let q := configureLoop opts (i + 1) rest
    (p.1 :: q.1, p.2 + q.2)

/-- Sum over the dice terms of (restored dice count × faces): the flat bonus
the powerful-fantastic house rule accumulates on a fantastic result. -/
def diceFlatSum (ts : List Term) : Nat :=
  (ts.map (fun t => match t with
    | .dice n f _ o => (o.baseNumber.getD n) * f
    | _ => 0)).sum

/-- `DamageRoll.configureDamage`: scale dice (and optionally numeric) terms,
append the powerful-fantastic flat bonus when positive, append the extra
fantastic bonus damage terms, recompile `_formula`, and mark
`options.configured`. -/
def configureDamage (r : DamageRoll) : DamageRoll :=
  let q := configureLoop r.options 0 r.terms
  let ts2 := if r.options.powerfulfantastic ∧ 0 < q.2 then
      q.1 ++ [.op "+", .num q.2 ⟨none, false⟩]
    else q.1
  let ts3 :=
    match r.options.fantastic, r.options.fantasticBonusDamage with
    | some true, some extra =>
      match extra.head? with
      | some (.op _) => ts2 ++ extra
      | _ => ts2 ++ [.op "+"] ++ extra
    | _, _ => ts2
  { terms := ts3, formula := getFormula ts3
    options := { r.options with configured := true } }

/-- The state produced by the host `Roll` constructor (and by
`Roll.fromData` followed by the `_formula` reset): the parsed terms together
with the formula recompiled from them. -/
def baseRoll (initialTerms : List Term) (opts : RollOptions) : DamageRoll :=
  { terms := initialTerms, formula := getFormula initialTerms, options := opts }

/-- The `DamageRoll` constructor: after the host `Roll` constructor, run
`preprocessFormula` unless already preprocessed, then `configureDamage` when
`options.fantastic` is defined and the roll is not yet configured. -/
def mkDamageRoll (initialTerms : List Term) (opts : RollOptions) : DamageRoll :=
  let r0 := baseRoll initialTerms opts
  let r1 := if r0.options.preprocessed = false then preprocessFormula r0 else r0
  if r1.options.fantastic ≠ none ∧ r1.options.configured = false then configureDamage r1
  else r1

/-- `DamageRoll.fromData`: rebuild the roll from stored data (terms) and reset
`_formula` from the term list. -/
def fromData (storedTerms : List Term) (opts : RollOptions) : DamageRoll :=
  baseRoll storedTerms opts

/-- Fallible construction: the host's formula parse may throw; the
`DamageRoll` constructor contains no try/catch, so the parse error propagates
unchanged. -/
def mkDamageRollE (parsed : Except String (List Term)) (opts : RollOptions) :
    Except String DamageRoll :=
  match parsed with
  | .error e => .error e
  | .ok ts => .ok (mkDamageRoll ts opts)

/-- Control skeleton of the static `DamageRoll.toMessage`: each roll is
awaited (`roll.evaluate`), then the chat message is created
(`cls.create`) when `create` is true; there is no try/catch, so the first
host failure propagates unchanged. -/
def toMessageE (evalResults : List (Except String Nat))
    (createResult : Except String Nat) (create : Bool) : Except String Nat :=
  match evalResults.findSome? (fun r => match r with | .error e => some e | _ => none) with
  | some e => .error e
  | none => if create then createResult else .ok 0

/-- A field specification handed to the host's validation layer. -/
inductive FieldSpec where
  | booleanField (required : Bool) (initial : Bool)
  | numberField (required nullable integer : Bool) (initial : Nat)
  | stringField (blank : Bool)
deriving Repr, DecidableEq

/-- The fields `MarvelMultiverseWeapon.defineSchema` adds, in source order. -/
def weaponSchemaFields : List (String × FieldSpec) :=
  [("melee", .booleanField true true),
   ("range", .numberField true false true 0),
   ("damageMultiplier", .stringField true),
   ("rule", .stringField true),
   ("recommenedRank", .stringField true),
   ("category", .stringField true),
   ("size", .stringField true),
   ("reach", .stringField true),
   ("description", .stringField true),
   ("history", .stringField true),
   ("commentary", .stringField true),
   ("equipped", .booleanField true false)]

/-- `MarvelMultiverseWeapon.defineSchema`: extend the base item schema with
the weapon fields. -/
def defineSchema (base : List (String × FieldSpec)) : List (String × FieldSpec) :=
  base ++ weaponSchemaFields

/-- Whether a term is a dice or numeric term. -/
def isDiceOrNum : Term → Bool
  | .dice _ _ _ _ => true
  | .num _ _ => true
  | _ => false

/-- Whether the first term of a list is a dice term. -/
def headIsDice (ts : List Term) : Bool :=
  match ts.head? with
  | some (.dice _ _ _ _) => true
  | _ => false

/-- The amended description of `preprocessFormula` as a single left-to-right
pass over a zipper (`left` holds the already-visited terms in reverse):
shorthand `dX` string terms not preceded by a parenthetical become `1dX`;
a deterministic parenthetical preceded by a `^[0-9]*d$` string term is merged
with that prefix (and any immediately following string term) into the term
parsed from the concatenation, after which the scan resumes one position past
the merged term, skipping the term that slides into that position; a
deterministic parenthetical or function term followed by a `^d[0-9]*$` string
term is merged with it in place. -/
def mergePass : List Term → List Term → List Term
  | left, [] => left.reverse
  | left, .str s :: rest =>
    if reShorthand s && !(isParenOpt left.head?) then
      mergePass (parse1 ("1" ++ s) :: left) rest
    else mergePass (.str s :: left) rest
  | .str p :: left2, .paren total det :: .str s2 :: x :: rest3 =>
    if reNumD p then
      if det then mergePass (x :: parse1 (p ++ Nat.repr total ++ s2) :: left2) rest3
      else mergePass (.paren total det :: .str p :: left2) (.str s2 :: x :: rest3)
    else
      if reDNum s2 && det then
        mergePass (parse1 (Nat.repr total ++ s2) :: .str p :: left2) (x :: rest3)
      else mergePass (.paren total det :: .str p :: left2) (.str s2 :: x :: rest3)
  | .str p :: left2, [.paren total det, .str s2] =>
    if reNumD p then
      if det then (parse1 (p ++ Nat.repr total ++ s2) :: left2).reverse
      else mergePass (.paren total det :: .str p :: left2) [.str s2]
    else
      if reDNum s2 && det then
        mergePass (parse1 (Nat.repr total ++ s2) :: .str p :: left2) []
      else mergePass (.paren total det :: .str p :: left2) [.str s2]
  | .str p :: left2, .paren total det :: x :: rest2 =>
    if reNumD p then
      if det then mergePass (x :: parse1 (p ++ Nat.repr total) :: left2) rest2
      else mergePass (.paren total det :: .str p :: left2) (x :: rest2)
    else mergePass (.paren total det :: .str p :: left2) (x :: rest2)
  | .str p :: left2, [.paren total det] =>
    if reNumD p then
      if det then (parse1 (p ++ Nat.repr total) :: left2).reverse
      else mergePass (.paren total det :: .str p :: left2) []
    else mergePass (.paren total det :: .str p :: left2) []
  | left, .paren total det :: .str s2 :: rest2 =>
    if reDNum s2 && det then mergePass (parse1 (Nat.repr total ++ s2) :: left) rest2
    else mergePass (.paren total det :: left) (.str s2 :: rest2)
  | left, .paren total det :: rest => mergePass (.paren total det :: left) rest
  | left, .func total det :: .str s2 :: rest2 =>
    if reDNum s2 && det then mergePass (parse1 (Nat.repr total ++ s2) :: left) rest2
    else mergePass (.func total det :: left) (.str s2 :: rest2)
  | left, .func total det :: rest => mergePass (.func total det :: left) rest
  | left, t :: rest => mergePass (t :: left) rest
termination_by _ right => right.length
decreasing_by all_goals simp_wf <;> omega

/-! Helper lemmas relating the index-and-splice loop of the source to the
zipper formulation: throughout, `left.reverse ++ right` is the current term
list and `left.length` the loop index. -/

theorem zipGetSelf (l : List Term) (t : Term) (r : List Term) :
    (l.reverse ++ t :: r)[l.length]? = some t := by
  rw [List.getElem?_append_right (by simp)]
  simp

theorem zipGetNext (l : List Term) (t x : Term) (r : List Term) :
    (l.reverse ++ t :: x :: r)[l.length + 1]? = some x := by
  rw [List.getElem?_append_right (by simp)]
  simp

theorem zipGetNextNone (l : List Term) (t : Term) :
    (l.reverse ++ [t])[l.length + 1]? = none := by
  rw [List.getElem?_append_right (by simp)]
  simp

theorem zipPrev (l r : List Term) :
    (if l.length = 0 then none else (l.reverse ++ r)[l.length - 1]?) = l.head? := by
  cases l with
  | nil => simp
  | cons a l2 =>
    have h : ((a :: l2).reverse ++ r)[l2.length]? = some a := by
      rw [List.reverse_cons, List.append_assoc]
      simpa using zipGetSelf l2 a r
    simpa using h

theorem spliceZip (l mid r : List Term) (m : Term) :
    splice (l.reverse ++ (mid ++ r)) l.length mid.length m = (m :: l).reverse ++ r := by
  unfold splice
  have h1 : (l.reverse ++ (mid ++ r)).take l.length = l.reverse := by
    rw [show l.length = l.reverse.length by simp, List.take_left]
  have h2 : (l.reverse ++ (mid ++ r)).drop (l.length + mid.length) = r := by
    rw [← List.append_assoc,
      show l.length + mid.length = (l.reverse ++ mid).length by simp, List.drop_left]
  rw [h1, h2]
  simp

theorem preprocessLoop_of_le (fuel : Nat) (ts : List Term) (i : Nat) (h : ts.length ≤ i) :
    preprocessLoop fuel ts i = ts := by
  cases fuel with
  | zero => rfl
  | succ f =>
    simp only [preprocessLoop]
    rw [if_neg (by omega)]

example : parse1 "1d6" = .dice 1 6 "" ⟨none, false⟩ := by decide
example : parse1 "d2" = .dice 1 2 "" ⟨none, false⟩ := by decide
example : parse1 "2d6kh" = .dice 2 6 "kh" ⟨none, false⟩ := by decide
example : parse1 "2d" = .str "2d" := by decide
example :
    preprocessLoop 4 [.str "d", .paren 2 true, .paren 3 true, .str "d6"] 0 =
      [.dice 1 2 "" ⟨none, false⟩, .paren 3 true, .str "d6"] := by decide
example :
    (mkDamageRoll [.dice 1 6 "" ⟨none, false⟩]
      { fantastic := some true, fantasticBonusDice := 1 }).terms =
      [.dice 4 6 "" ⟨some 1, true⟩] := by decide

/-- The source loop over the mutating term list (with full fuel) computes
exactly the single left-to-right merge pass described by `mergePass`. -/
theorem loop_eq_mergePass (left right : List Term) :
    ∀ fuel, right.length ≤ fuel →
      preprocessLoop fuel (left.reverse ++ right) left.length = mergePass left right := by
  induction left, right using mergePass.induct with
  | case1 left =>
    intro fuel _
    rw [mergePass]
    have := preprocessLoop_of_le fuel (left.reverse ++ []) left.length (by simp)
    simpa using this
  | case2 left s rest h ih =>
    intro fuel hf
    obtain ⟨f, rfl⟩ : ∃ f, fuel = f + 1 := ⟨fuel - 1, by simp at hf; omega⟩
    have hstep : preprocessStep (left.reverse ++ Term.str s :: rest) left.length
        = (parse1 ("1" ++ s) :: left).reverse ++ rest := by
      simp only [preprocessStep, zipGetSelf, zipPrev, h, if_true]
      simpa using spliceZip left [Term.str s] rest (parse1 ("1" ++ s))
    simp only [preprocessLoop]
    rw [if_pos (by simp)]
    rw [hstep, mergePass, if_pos h]
    have := ih f (by simp only [List.length_cons, List.length_nil] at hf ⊢; omega)
    simpa using this
  | case3 left s rest h ih =>
    intro fuel hf
    obtain ⟨f, rfl⟩ : ∃ f, fuel = f + 1 := ⟨fuel - 1, by simp at hf; omega⟩
    have hstep : preprocessStep (left.reverse ++ Term.str s :: rest) left.length
        = left.reverse ++ Term.str s :: rest := by
      simp only [preprocessStep, zipGetSelf, zipPrev]
      rw [if_neg h]
    simp only [preprocessLoop]
    rw [if_pos (by simp)]
    rw [hstep, mergePass, if_neg h]
    have := ih f (by simp only [List.length_cons, List.length_nil] at hf ⊢; omega)
    simpa using this
  | case4 p left2 total s2 x rest3 h ih =>
    intro fuel hf
    obtain ⟨f, rfl⟩ : ∃ f, fuel = f + 1 := ⟨fuel - 1, by simp at hf; omega⟩
    have hstep : preprocessStep ((Term.str p :: left2).reverse ++ Term.paren total true :: Term.str s2 :: x :: rest3) (Term.str p :: left2).length
        = (x :: parse1 (p ++ Nat.repr total ++ s2) :: left2).reverse ++ rest3 := by
      have hs := spliceZip left2 [Term.str p, Term.paren total true, Term.str s2] (x :: rest3) (parse1 (p ++ Nat.repr total ++ s2))
      simp only [preprocessStep, zipGetSelf, zipPrev, zipGetNext, List.head?_cons, h, if_true]
      simp only [List.length_cons, Nat.add_sub_cancel]
      simp only [List.cons_append, List.nil_append, List.append_assoc] at hs ⊢
      simpa using hs
    simp only [preprocessLoop]
    rw [if_pos (by simp)]
    rw [hstep]
    have := ih f (by simp only [List.length_cons, List.length_nil] at hf ⊢; omega)
    rw [mergePass]
    simp only [h, if_true]
    simpa using this
  | case5 p left2 total det s2 x rest3 h1 h2 ih =>
    intro fuel hf
    obtain ⟨f, rfl⟩ : ∃ f, fuel = f + 1 := ⟨fuel - 1, by simp at hf; omega⟩
    have hstep : preprocessStep ((Term.str p :: left2).reverse ++ Term.paren total det :: Term.str s2 :: x :: rest3) (Term.str p :: left2).length
        = (Term.str p :: left2).reverse ++ Term.paren total det :: Term.str s2 :: x :: rest3 := by
      simp only [preprocessStep, zipGetSelf, zipPrev, List.head?_cons, h1, if_true]
      rw [if_neg h2]
    simp only [preprocessLoop]
    rw [if_pos (by simp)]
    rw [hstep]
    have := ih f (by simp only [List.length_cons, List.length_nil] at hf ⊢; omega)
    rw [mergePass]
    simp only [h1, if_true]
    rw [if_neg h2]
    simpa using this
  | case6 p left2 total det s2 x rest3 h1 h2 ih =>
    intro fuel hf
    obtain ⟨f, rfl⟩ : ∃ f, fuel = f + 1 := ⟨fuel - 1, by simp at hf; omega⟩
    have h2' := h2
    rw [Bool.and_eq_true] at h2'
    obtain ⟨hre, hdet⟩ := h2'
    subst hdet
    have hstep : preprocessStep ((Term.str p :: left2).reverse ++ Term.paren total true :: Term.str s2 :: x :: rest3) (Term.str p :: left2).length
        = (parse1 (Nat.repr total ++ s2) :: Term.str p :: left2).reverse ++ x :: rest3 := by
      have hs := spliceZip (Term.str p :: left2) [Term.paren total true, Term.str s2] (x :: rest3) (parse1 (Nat.repr total ++ s2))
      simp only [preprocessStep, zipGetSelf, zipPrev, List.head?_cons]
      rw [if_neg h1]
      simp only [suffixStep, zipGetNext, hre, if_true]
      simp only [List.cons_append, List.nil_append, List.append_assoc] at hs ⊢
      simpa using hs
    simp only [preprocessLoop]
    rw [if_pos (by simp)]
    rw [hstep]
    have := ih f (by simp only [List.length_cons, List.length_nil] at hf ⊢; omega)
    rw [mergePass]
    rw [if_neg h1, if_pos h2]
    simpa using this
  | case7 p left2 total det s2 x rest3 h1 h2 ih =>
    intro fuel hf
    obtain ⟨f, rfl⟩ : ∃ f, fuel = f + 1 := ⟨fuel - 1, by simp at hf; omega⟩
    have hstep : preprocessStep ((Term.str p :: left2).reverse ++ Term.paren total det :: Term.str s2 :: x :: rest3) (Term.str p :: left2).length
        = (Term.str p :: left2).reverse ++ Term.paren total det :: Term.str s2 :: x :: rest3 := by
      simp only [preprocessStep, zipGetSelf, zipPrev, List.head?_cons]
      rw [if_neg h1]
      simp only [suffixStep, zipGetNext]
      cases hre : reDNum s2 with
      | true =>
        cases hdet : det with
        | true => exact absurd (by rw [hre, hdet]; rfl) h2
        | false => simp
      | false => simp
    simp only [preprocessLoop]
    rw [if_pos (by simp)]
    rw [hstep]
    have := ih f (by simp only [List.length_cons, List.length_nil] at hf ⊢; omega)
    rw [mergePass]
    rw [if_neg h1, if_neg h2]
    simpa using this
  | case8 p left2 total s2 h =>
    intro fuel hf
    obtain ⟨f, rfl⟩ : ∃ f, fuel = f + 1 := ⟨fuel - 1, by simp at hf; omega⟩
    have hstep : preprocessStep ((Term.str p :: left2).reverse ++ [Term.paren total true, Term.str s2]) (Term.str p :: left2).length
        = (parse1 (p ++ Nat.repr total ++ s2) :: left2).reverse := by
      have hs := spliceZip left2 [Term.str p, Term.paren total true, Term.str s2] [] (parse1 (p ++ Nat.repr total ++ s2))
      simp only [preprocessStep, zipGetSelf, zipPrev, zipGetNext, List.head?_cons, h, if_true]
      simp only [List.length_cons, Nat.add_sub_cancel]
      simp only [List.cons_append, List.nil_append, List.append_assoc, List.append_nil] at hs ⊢
      simpa using hs
    simp only [preprocessLoop]
    rw [if_pos (by simp)]
    rw [hstep, mergePass]
    simp only [h, if_true]
    exact preprocessLoop_of_le f _ _ (by simp)
  | case9 p left2 total det s2 h1 h2 ih =>
    intro fuel hf
    obtain ⟨f, rfl⟩ : ∃ f, fuel = f + 1 := ⟨fuel - 1, by simp at hf; omega⟩
    have hstep : preprocessStep ((Term.str p :: left2).reverse ++ [Term.paren total det, Term.str s2]) (Term.str p :: left2).length
        = (Term.str p :: left2).reverse ++ [Term.paren total det, Term.str s2] := by
      simp only [preprocessStep, zipGetSelf, zipPrev, List.head?_cons, h1, if_true]
      rw [if_neg h2]
    simp only [preprocessLoop]
    rw [if_pos (by simp)]
    rw [hstep]
    have := ih f (by simp only [List.length_cons, List.length_nil] at hf ⊢; omega)
    rw [mergePass]
    simp only [h1, if_true]
    rw [if_neg h2]
    simpa using this
  | case10 p left2 total det s2 h1 h2 ih =>
    intro fuel hf
    obtain ⟨f, rfl⟩ : ∃ f, fuel = f + 1 := ⟨fuel - 1, by simp at hf; omega⟩
    have h2' := h2
    rw [Bool.and_eq_true] at h2'
    obtain ⟨hre, hdet⟩ := h2'
    subst hdet
    have hstep : preprocessStep ((Term.str p :: left2).reverse ++ [Term.paren total true, Term.str s2]) (Term.str p :: left2).length
        = (parse1 (Nat.repr total ++ s2) :: Term.str p :: left2).reverse := by
      have hs := spliceZip (Term.str p :: left2) [Term.paren total true, Term.str s2] [] (parse1 (Nat.repr total ++ s2))
      simp only [preprocessStep, zipGetSelf, zipPrev, List.head?_cons]
      rw [if_neg h1]
      simp only [suffixStep, zipGetNext, hre, if_true]
      simp only [List.cons_append, List.nil_append, List.append_assoc, List.append_nil] at hs ⊢
      simpa using hs
    simp only [preprocessLoop]
    rw [if_pos (by simp)]
    rw [hstep]
    have := ih f (by simp)
    rw [mergePass]
    rw [if_neg h1, if_pos h2]
    simpa using this
  | case11 p left2 total det s2 h1 h2 ih =>
    intro fuel hf
    obtain ⟨f, rfl⟩ : ∃ f, fuel = f + 1 := ⟨fuel - 1, by simp at hf; omega⟩
    have hstep : preprocessStep ((Term.str p :: left2).reverse ++ [Term.paren total det, Term.str s2]) (Term.str p :: left2).length
        = (Term.str p :: left2).reverse ++ [Term.paren total det, Term.str s2] := by
      simp only [preprocessStep, zipGetSelf, zipPrev, List.head?_cons]
      rw [if_neg h1]
      simp only [suffixStep, zipGetNext]
      cases hre : reDNum s2 with
      | true =>
        cases hdet : det with
        | true => exact absurd (by rw [hre, hdet]; rfl) h2
        | false => simp
      | false => simp
    simp only [preprocessLoop]
    rw [if_pos (by simp)]
    rw [hstep]
    have := ih f (by simp only [List.length_cons, List.length_nil] at hf ⊢; omega)
    rw [mergePass]
    rw [if_neg h1, if_neg h2]
    simpa using this
  | case12 p left2 total x rest2 hns hnn h ih =>
    intro fuel hf
    obtain ⟨f, rfl⟩ : ∃ f, fuel = f + 1 := ⟨fuel - 1, by simp at hf; omega⟩
    have hxne : ∀ s : String, x = Term.str s → False := by
      intro s hs
      cases rest2 with
      | nil => exact hnn s hs rfl
      | cons a r => exact hns s a r hs rfl
    have hstep : preprocessStep ((Term.str p :: left2).reverse ++ Term.paren total true :: x :: rest2) (Term.str p :: left2).length
        = (x :: parse1 (p ++ Nat.repr total) :: left2).reverse ++ rest2 := by
      have hs := spliceZip left2 [Term.str p, Term.paren total true] (x :: rest2) (parse1 (p ++ Nat.repr total))
      simp only [preprocessStep, zipGetSelf, zipPrev, zipGetNext, List.head?_cons, h, if_true]
      simp only [List.length_cons, Nat.add_sub_cancel]
      cases x with
      | str s => exact absurd rfl (hxne s)
      | dice n fc mm o =>
        simp only [List.cons_append, List.nil_append, List.append_assoc] at hs ⊢
        simpa using hs
      | num n o =>
        simp only [List.cons_append, List.nil_append, List.append_assoc] at hs ⊢
        simpa using hs
      | op o =>
        simp only [List.cons_append, List.nil_append, List.append_assoc] at hs ⊢
        simpa using hs
      | paren t d =>
        simp only [List.cons_append, List.nil_append, List.append_assoc] at hs ⊢
        simpa using hs
      | func t d =>
        simp only [List.cons_append, List.nil_append, List.append_assoc] at hs ⊢
        simpa using hs
    simp only [preprocessLoop]
    rw [if_pos (by simp)]
    rw [hstep]
    have := ih f (by simp only [List.length_cons, List.length_nil] at hf ⊢; omega)
    cases x with
    | str s => exact absurd rfl (hxne s)
    | dice n fc mm o =>
      simp [mergePass, h] at this ⊢
      try exact this
    | num n o =>
      simp [mergePass, h] at this ⊢
      try exact this
    | op o =>
      simp [mergePass, h] at this ⊢
      try exact this
    | paren t d =>
      simp [mergePass, h] at this ⊢
      try exact this
    | func t d =>
      simp [mergePass, h] at this ⊢
      try exact this
  | case13 p left2 total det x rest2 hns hnn h1 h2 ih =>
    intro fuel hf
    obtain ⟨f, rfl⟩ : ∃ f, fuel = f + 1 := ⟨fuel - 1, by simp at hf; omega⟩
    have hstep : preprocessStep ((Term.str p :: left2).reverse ++ Term.paren total det :: x :: rest2) (Term.str p :: left2).length
        = (Term.str p :: left2).reverse ++ Term.paren total det :: x :: rest2 := by
      simp only [preprocessStep, zipGetSelf, zipPrev, List.head?_cons, h1, if_true]
      rw [if_neg h2]
    simp only [preprocessLoop]
    rw [if_pos (by simp)]
    rw [hstep]
    have := ih f (by simp only [List.length_cons, List.length_nil] at hf ⊢; omega)
    have hxne : ∀ s : String, x = Term.str s → False := by
      intro s hs
      cases rest2 with
      | nil => exact hnn s hs rfl
      | cons a r => exact hns s a r hs rfl
    cases x with
    | str s => exact absurd rfl (hxne s)
    | dice n fc mm o =>
      simp [mergePass, h1, h2] at this ⊢
      try exact this
    | num n o =>
      simp [mergePass, h1, h2] at this ⊢
      try exact this
    | op o =>
      simp [mergePass, h1, h2] at this ⊢
      try exact this
    | paren t d =>
      simp [mergePass, h1, h2] at this ⊢
      try exact this
    | func t d =>
      simp [mergePass, h1, h2] at this ⊢
      try exact this
  | case14 p left2 total det x rest2 hns hnn h1 ih =>
    intro fuel hf
    obtain ⟨f, rfl⟩ : ∃ f, fuel = f + 1 := ⟨fuel - 1, by simp at hf; omega⟩
    have hxne : ∀ s : String, x = Term.str s → False := by
      intro s hs
      cases rest2 with
      | nil => exact hnn s hs rfl
      | cons a r => exact hns s a r hs rfl
    have hstep : preprocessStep ((Term.str p :: left2).reverse ++ Term.paren total det :: x :: rest2) (Term.str p :: left2).length
        = (Term.str p :: left2).reverse ++ Term.paren total det :: x :: rest2 := by
      simp only [preprocessStep, zipGetSelf, zipPrev, List.head?_cons]
      rw [if_neg h1]
      simp only [suffixStep, zipGetNext]
      cases x with
      | str s => exact absurd rfl (hxne s)
      | dice n fc mm o => simp
      | num n o => simp
      | op o => simp
      | paren t d => simp
      | func t d => simp
    simp only [preprocessLoop]
    rw [if_pos (by simp)]
    rw [hstep]
    have := ih f (by simp only [List.length_cons, List.length_nil] at hf ⊢; omega)
    cases x with
    | str s => exact absurd rfl (hxne s)
    | dice n fc mm o =>
      simp [mergePass, h1] at this ⊢
      try exact this
    | num n o =>
      simp [mergePass, h1] at this ⊢
      try exact this
    | op o =>
      simp [mergePass, h1] at this ⊢
      try exact this
    | paren t d =>
      simp [mergePass, h1] at this ⊢
      try exact this
    | func t d =>
      simp [mergePass, h1] at this ⊢
      try exact this
  | case15 p left2 total h =>
    intro fuel hf
    obtain ⟨f, rfl⟩ : ∃ f, fuel = f + 1 := ⟨fuel - 1, by simp at hf; omega⟩
    have hstep : preprocessStep ((Term.str p :: left2).reverse ++ [Term.paren total true]) (Term.str p :: left2).length
        = (parse1 (p ++ Nat.repr total) :: left2).reverse := by
      have hs := spliceZip left2 [Term.str p, Term.paren total true] [] (parse1 (p ++ Nat.repr total))
      simp only [preprocessStep, zipGetSelf, zipPrev, zipGetNextNone, List.head?_cons, h, if_true]
      simp only [List.length_cons, Nat.add_sub_cancel]
      simp only [List.cons_append, List.nil_append, List.append_assoc, List.append_nil] at hs ⊢
      simpa using hs
    simp only [preprocessLoop]
    rw [if_pos (by simp)]
    rw [hstep, mergePass]
    simp only [h, if_true]
    exact preprocessLoop_of_le f _ _ (by simp)
  | case16 p left2 total det h1 h2 ih =>
    intro fuel hf
    obtain ⟨f, rfl⟩ : ∃ f, fuel = f + 1 := ⟨fuel - 1, by simp at hf; omega⟩
    have hstep : preprocessStep ((Term.str p :: left2).reverse ++ [Term.paren total det]) (Term.str p :: left2).length
        = (Term.str p :: left2).reverse ++ [Term.paren total det] := by
      simp only [preprocessStep, zipGetSelf, zipPrev, List.head?_cons, h1, if_true]
      rw [if_neg h2]
    simp only [preprocessLoop]
    rw [if_pos (by simp)]
    rw [hstep]
    have := ih f (by simp)
    rw [mergePass]
    simp only [h1, if_true]
    rw [if_neg h2]
    simpa using this
  | case17 p left2 total det h1 ih =>
    intro fuel hf
    obtain ⟨f, rfl⟩ : ∃ f, fuel = f + 1 := ⟨fuel - 1, by simp at hf; omega⟩
    have hstep : preprocessStep ((Term.str p :: left2).reverse ++ [Term.paren total det]) (Term.str p :: left2).length
        = (Term.str p :: left2).reverse ++ [Term.paren total det] := by
      simp only [preprocessStep, zipGetSelf, zipPrev, zipGetNextNone, List.head?_cons]
      rw [if_neg h1]
      simp only [suffixStep]
    simp only [preprocessLoop]
    rw [if_pos (by simp)]
    rw [hstep]
    have := ih f (by simp)
    rw [mergePass]
    rw [if_neg h1]
    simpa using this
  | case18 left total det s2 rest2 hc1 hc2 hc3 h ih =>
    intro fuel hf
    obtain ⟨f, rfl⟩ : ∃ f, fuel = f + 1 := ⟨fuel - 1, by simp at hf; omega⟩
    have h' := h
    rw [Bool.and_eq_true] at h'
    obtain ⟨hre, hdet⟩ := h'
    subst hdet
    have hstep : preprocessStep (left.reverse ++ Term.paren total true :: Term.str s2 :: rest2) left.length
        = (parse1 (Nat.repr total ++ s2) :: left).reverse ++ rest2 := by
      have hs := spliceZip left [Term.paren total true, Term.str s2] rest2 (parse1 (Nat.repr total ++ s2))
      simp only [List.cons_append, List.nil_append, List.append_assoc] at hs
      cases left with
      | nil => simp [preprocessStep, suffixStep, splice, hre]
      | cons a l2 =>
        simp only [preprocessStep, zipGetSelf, zipPrev, List.head?_cons]
        cases a with
        | str q => exact (hc3 q l2 rfl).elim
        | dice n fc mm o =>
          simp only [suffixStep, zipGetNext, hre, if_true]
          simpa using hs
        | num n o =>
          simp only [suffixStep, zipGetNext, hre, if_true]
          simpa using hs
        | op o =>
          simp only [suffixStep, zipGetNext, hre, if_true]
          simpa using hs
        | paren t d =>
          simp only [suffixStep, zipGetNext, hre, if_true]
          simpa using hs
        | func t d =>
          simp only [suffixStep, zipGetNext, hre, if_true]
          simpa using hs
    simp only [preprocessLoop]
    rw [if_pos (by simp)]
    rw [hstep]
    have := ih f (by simp only [List.length_cons, List.length_nil] at hf ⊢; omega)
    cases left with
    | nil =>
      simp [mergePass, hre] at this ⊢
      try exact this
    | cons a l2 =>
      cases a with
      | str q => exact (hc3 q l2 rfl).elim
      | dice n fc mm o =>
        simp [mergePass, hre] at this ⊢
        try exact this
      | num n o =>
        simp [mergePass, hre] at this ⊢
        try exact this
      | op o =>
        simp [mergePass, hre] at this ⊢
        try exact this
      | paren t d =>
        simp [mergePass, hre] at this ⊢
        try exact this
      | func t d =>
        simp [mergePass, hre] at this ⊢
        try exact this
  | case19 left total det s2 rest2 hc1 hc2 hc3 h ih =>
    intro fuel hf
    obtain ⟨f, rfl⟩ : ∃ f, fuel = f + 1 := ⟨fuel - 1, by simp at hf; omega⟩
    have hstep : preprocessStep (left.reverse ++ Term.paren total det :: Term.str s2 :: rest2) left.length
        = left.reverse ++ Term.paren total det :: Term.str s2 :: rest2 := by
      have hsuf : suffixStep (left.reverse ++ Term.paren total det :: Term.str s2 :: rest2) left.length total det
          ((left.reverse ++ Term.paren total det :: Term.str s2 :: rest2)[left.length + 1]?)
          = left.reverse ++ Term.paren total det :: Term.str s2 :: rest2 := by
        simp only [suffixStep, zipGetNext]
        cases hre : reDNum s2 with
        | true =>
          cases hdet : det with
          | true => exact absurd (by rw [hre, hdet]; rfl) h
          | false => simp
        | false => simp
      cases left with
      | nil =>
        simp only [preprocessStep, zipGetSelf, List.length_nil, if_pos rfl]
        exact hsuf
      | cons a l2 =>
        simp only [preprocessStep, zipGetSelf, zipPrev, List.head?_cons]
        cases a with
        | str q => exact (hc3 q l2 rfl).elim
        | dice n fc mm o => exact hsuf
        | num n o => exact hsuf
        | op o => exact hsuf
        | paren t d => exact hsuf
        | func t d => exact hsuf
    simp only [preprocessLoop]
    rw [if_pos (by simp)]
    rw [hstep]
    have := ih f (by simp only [List.length_cons, List.length_nil] at hf ⊢; omega)
    cases left with
    | nil =>
      simp [mergePass, h] at this ⊢
      try exact this
    | cons a l2 =>
      cases a with
      | str q => exact (hc3 q l2 rfl).elim
      | dice n fc mm o =>
        simp [mergePass, h] at this ⊢
        try exact this
      | num n o =>
        simp [mergePass, h] at this ⊢
        try exact this
      | op o =>
        simp [mergePass, h] at this ⊢
        try exact this
      | paren t d =>
        simp [mergePass, h] at this ⊢
        try exact this
      | func t d =>
        simp [mergePass, h] at this ⊢
        try exact this
  | case20 left total det rest hc1 hc2 hc3 hc4 hc5 ih =>
    intro fuel hf
    obtain ⟨f, rfl⟩ : ∃ f, fuel = f + 1 := ⟨fuel - 1, by simp at hf; omega⟩
    have hleftne : ∀ (q : String) (l2 : List Term), left = Term.str q :: l2 → False := by
      intro q l2 hq
      cases rest with
      | nil => exact hc4 q l2 hq rfl
      | cons a r => exact hc3 q l2 a r hq rfl
    have hrestne : ∀ (q : String) (r2 : List Term), rest = Term.str q :: r2 → False := hc5
    have hsufgen : suffixStep (left.reverse ++ Term.paren total det :: rest) left.length total det
        ((left.reverse ++ Term.paren total det :: rest)[left.length + 1]?)
        = left.reverse ++ Term.paren total det :: rest := by
      cases rest with
      | nil =>
        simp only [zipGetNextNone, suffixStep]
      | cons a r =>
        cases a with
        | str q => exact (hrestne q r rfl).elim
        | dice n fc mm o => simp only [zipGetNext, suffixStep]
        | num n o => simp only [zipGetNext, suffixStep]
        | op o => simp only [zipGetNext, suffixStep]
        | paren t d => simp only [zipGetNext, suffixStep]
        | func t d => simp only [zipGetNext, suffixStep]
    have hstep : preprocessStep (left.reverse ++ Term.paren total det :: rest) left.length
        = left.reverse ++ Term.paren total det :: rest := by
      cases left with
      | nil =>
        cases rest with
        | nil => simp [preprocessStep, suffixStep]
        | cons a r =>
          cases a with
          | str q => exact (hrestne q r rfl).elim
          | dice n fc mm o => simp [preprocessStep, suffixStep]
          | num n o => simp [preprocessStep, suffixStep]
          | op o => simp [preprocessStep, suffixStep]
          | paren t d => simp [preprocessStep, suffixStep]
          | func t d => simp [preprocessStep, suffixStep]
      | cons a l2 =>
        simp only [preprocessStep, zipGetSelf, zipPrev, List.head?_cons]
        cases a with
        | str q => exact (hleftne q l2 rfl).elim
        | dice n fc mm o => exact hsufgen
        | num n o => exact hsufgen
        | op o => exact hsufgen
        | paren t d => exact hsufgen
        | func t d => exact hsufgen
    simp only [preprocessLoop]
    rw [if_pos (by simp)]
    rw [hstep]
    have := ih f (by simp only [List.length_cons, List.length_nil] at hf ⊢; omega)
    have hgoal : mergePass left (Term.paren total det :: rest) = mergePass (Term.paren total det :: left) rest := by
      cases left with
      | nil =>
        cases rest with
        | nil => simp [mergePass]
        | cons a r =>
          cases a with
          | str q => exact (hrestne q r rfl).elim
          | dice n fc mm o => simp [mergePass]
          | num n o => simp [mergePass]
          | op o => simp [mergePass]
          | paren t d => simp [mergePass]
          | func t d => simp [mergePass]
      | cons b l2 =>
        cases b with
        | str q => exact (hleftne q l2 rfl).elim
        | dice n fc mm o =>
          cases rest with
          | nil => simp [mergePass]
          | cons a r =>
            cases a with
            | str q => exact (hrestne q r rfl).elim
            | dice n2 fc2 mm2 o2 => simp [mergePass]
            | num n2 o2 => simp [mergePass]
            | op o2 => simp [mergePass]
            | paren t2 d2 => simp [mergePass]
            | func t2 d2 => simp [mergePass]
        | num n o =>
          cases rest with
          | nil => simp [mergePass]
          | cons a r =>
            cases a with
            | str q => exact (hrestne q r rfl).elim
            | dice n2 fc2 mm2 o2 => simp [mergePass]
            | num n2 o2 => simp [mergePass]
            | op o2 => simp [mergePass]
            | paren t2 d2 => simp [mergePass]
            | func t2 d2 => simp [mergePass]
        | op o =>
          cases rest with
          | nil => simp [mergePass]
          | cons a r =>
            cases a with
            | str q => exact (hrestne q r rfl).elim
            | dice n2 fc2 mm2 o2 => simp [mergePass]
            | num n2 o2 => simp [mergePass]
            | op o2 => simp [mergePass]
            | paren t2 d2 => simp [mergePass]
            | func t2 d2 => simp [mergePass]
        | paren t d =>
          cases rest with
          | nil => simp [mergePass]
          | cons a r =>
            cases a with
            | str q => exact (hrestne q r rfl).elim
            | dice n2 fc2 mm2 o2 => simp [mergePass]
            | num n2 o2 => simp [mergePass]
            | op o2 => simp [mergePass]
            | paren t2 d2 => simp [mergePass]
            | func t2 d2 => simp [mergePass]
        | func t d =>
          cases rest with
          | nil => simp [mergePass]
          | cons a r =>
            cases a with
            | str q => exact (hrestne q r rfl).elim
            | dice n2 fc2 mm2 o2 => simp [mergePass]
            | num n2 o2 => simp [mergePass]
            | op o2 => simp [mergePass]
            | paren t2 d2 => simp [mergePass]
            | func t2 d2 => simp [mergePass]
    rw [hgoal]
    simpa using this
  | case21 left total det s2 rest2 h ih =>
    intro fuel hf
    obtain ⟨f, rfl⟩ : ∃ f, fuel = f + 1 := ⟨fuel - 1, by simp at hf; omega⟩
    have h' := h
    rw [Bool.and_eq_true] at h'
    obtain ⟨hre, hdet⟩ := h'
    subst hdet
    have hstep : preprocessStep (left.reverse ++ Term.func total true :: Term.str s2 :: rest2) left.length
        = (parse1 (Nat.repr total ++ s2) :: left).reverse ++ rest2 := by
      have hs := spliceZip left [Term.func total true, Term.str s2] rest2 (parse1 (Nat.repr total ++ s2))
      simp only [preprocessStep, zipGetSelf]
      simp only [suffixStep, zipGetNext, hre, if_true]
      simp only [List.cons_append, List.nil_append, List.append_assoc] at hs ⊢
      simpa using hs
    simp only [preprocessLoop]
    rw [if_pos (by simp)]
    rw [hstep]
    have := ih f (by simp only [List.length_cons, List.length_nil] at hf ⊢; omega)
    rw [mergePass]
    rw [if_pos h]
    simpa using this
  | case22 left total det s2 rest2 h ih =>
    intro fuel hf
    obtain ⟨f, rfl⟩ : ∃ f, fuel = f + 1 := ⟨fuel - 1, by simp at hf; omega⟩
    have hstep : preprocessStep (left.reverse ++ Term.func total det :: Term.str s2 :: rest2) left.length
        = left.reverse ++ Term.func total det :: Term.str s2 :: rest2 := by
      simp only [preprocessStep, zipGetSelf]
      simp only [suffixStep, zipGetNext]
      cases hre : reDNum s2 with
      | true =>
        cases hdet : det with
        | true => exact absurd (by rw [hre, hdet]; rfl) h
        | false => simp
      | false => simp
    simp only [preprocessLoop]
    rw [if_pos (by simp)]
    rw [hstep]
    have := ih f (by simp only [List.length_cons, List.length_nil] at hf ⊢; omega)
    rw [mergePass]
    rw [if_neg h]
    simpa using this
  | case23 left total det rest hc ih =>
    intro fuel hf
    obtain ⟨f, rfl⟩ : ∃ f, fuel = f + 1 := ⟨fuel - 1, by simp at hf; omega⟩
    have hstep : preprocessStep (left.reverse ++ Term.func total det :: rest) left.length
        = left.reverse ++ Term.func total det :: rest := by
      simp only [preprocessStep, zipGetSelf]
      cases rest with
      | nil => simp only [zipGetNextNone, suffixStep]
      | cons a r =>
        cases a with
        | str q => exact (hc q r rfl).elim
        | dice n fc mm o => simp only [zipGetNext, suffixStep]
        | num n o => simp only [zipGetNext, suffixStep]
        | op o => simp only [zipGetNext, suffixStep]
        | paren t d => simp only [zipGetNext, suffixStep]
        | func t d => simp only [zipGetNext, suffixStep]
    simp only [preprocessLoop]
    rw [if_pos (by simp)]
    rw [hstep]
    have := ih f (by simp only [List.length_cons, List.length_nil] at hf ⊢; omega)
    have hgoal : mergePass left (Term.func total det :: rest) = mergePass (Term.func total det :: left) rest := by
      cases rest with
      | nil => simp [mergePass]
      | cons a r =>
        cases a with
        | str q => exact (hc q r rfl).elim
        | dice n2 fc2 mm2 o2 => simp [mergePass]
        | num n2 o2 => simp [mergePass]
        | op o2 => simp [mergePass]
        | paren t2 d2 => simp [mergePass]
        | func t2 d2 => simp [mergePass]
    rw [hgoal]
    simpa using this
  | case24 left t rest hstr hp1 hp2 hp3 hp4 hp5 hparen hf1 hfunc ih =>
    intro fuel hf
    obtain ⟨f, rfl⟩ : ∃ f, fuel = f + 1 := ⟨fuel - 1, by simp at hf; omega⟩
    have hstep : preprocessStep (left.reverse ++ t :: rest) left.length
        = left.reverse ++ t :: rest := by
      cases t with
      | str s => exact (hstr s rfl).elim
      | paren tt d => exact (hparen tt d rfl).elim
      | func tt d => exact (hfunc tt d rfl).elim
      | dice n fc mm o => simp only [preprocessStep, zipGetSelf]
      | num n o => simp only [preprocessStep, zipGetSelf]
      | op o => simp only [preprocessStep, zipGetSelf]
    simp only [preprocessLoop]
    rw [if_pos (by simp)]
    rw [hstep]
    have := ih f (by simp only [List.length_cons, List.length_nil] at hf ⊢; omega)
    have hgoal : mergePass left (t :: rest) = mergePass (t :: left) rest := by
      cases t with
      | str s => exact (hstr s rfl).elim
      | paren tt d => exact (hparen tt d rfl).elim
      | func tt d => exact (hfunc tt d rfl).elim
      | dice n fc mm o => simp [mergePass]
      | num n o => simp [mergePass]
      | op o => simp [mergePass]
    rw [hgoal]
    simpa using this

/-! Helper lemmas about the `configureDamage` loop. -/

theorem configureLoop_length (opts : RollOptions) :
    ∀ (i : Nat) (ts : List Term), (configureLoop opts i ts).1.length = ts.length := by
  intro i ts
  induction ts generalizing i with
  | nil => rfl
  | cons t rest ih => simp [configureLoop, ih]

theorem configureLoop_get (opts : RollOptions) :
    ∀ (ts : List Term) (i k : Nat),
      (configureLoop opts i ts).1[k]? =
        (ts[k]?).map (fun t => (configureOne opts (i + k) t).1) := by
  intro ts
  induction ts with
  | nil => intro i k; simp [configureLoop]
  | cons t rest ih =>
    intro i k
    cases k with
    | zero => simp [configureLoop]
    | succ k2 =>
      simp only [configureLoop, List.getElem?_cons_succ]
      rw [ih (i + 1) k2]
      have hidx : i + 1 + k2 = i + (k2 + 1) := by omega
      rw [hidx]

theorem configureLoop_append (opts : RollOptions) :
    ∀ (xs ys : List Term) (i : Nat),
      (configureLoop opts i (xs ++ ys)).1 =
        (configureLoop opts i xs).1 ++ (configureLoop opts (i + xs.length) ys).1 := by
  intro xs
  induction xs with
  | nil => intro ys i; simp [configureLoop]
  | cons x rest ih =>
    intro ys i
    simp only [List.cons_append, configureLoop, List.append_eq]
    rw [ih ys (i + 1)]
    simp only [List.length_cons]
    have hidx : i + 1 + rest.length = i + (rest.length + 1) := by omega
    rw [hidx]

theorem configureOne_idem (opts : RollOptions) (i : Nat) (t : Term) :
    (configureOne opts i (configureOne opts i t).1).1 = (configureOne opts i t).1 := by
  cases t with
  | dice n f m o =>
    by_cases hf : opts.fantastic = some true <;> simp [configureOne, hf]
  | num n o =>
    by_cases hm : opts.multiplyNumeric = true <;>
      by_cases hf : opts.fantastic = some true <;> simp [configureOne, hf, hm]
  | op o => rfl
  | str s => rfl
  | paren t d => rfl
  | func t d => rfl

theorem configureLoop_idem (opts : RollOptions) :
    ∀ (ts : List Term) (i : Nat),
      (configureLoop opts i (configureLoop opts i ts).1).1 = (configureLoop opts i ts).1 := by
  intro ts
  induction ts with
  | nil => intro i; rfl
  | cons t rest ih =>
    intro i
    simp only [configureLoop]
    rw [configureOne_idem, ih (i + 1)]

theorem configureOne_config (opts : RollOptions) (i : Nat) (t : Term) :
    configureOne { opts with configured := true } i t = configureOne opts i t := by
  cases t <;> rfl

theorem configureLoop_config (opts : RollOptions) :
    ∀ (ts : List Term) (i : Nat),
      configureLoop { opts with configured := true } i ts = configureLoop opts i ts := by
  intro ts
  induction ts with
  | nil => intro i; rfl
  | cons t rest ih =>
    intro i
    simp only [configureLoop]
    rw [configureOne_config, ih (i + 1)]

theorem configureLoop_contrib (opts : RollOptions) (hf : opts.fantastic = some true)
    (hp : opts.powerfulfantastic = true) :
    ∀ (ts : List Term) (i : Nat), (configureLoop opts i ts).2 = diceFlatSum ts := by
  intro ts
  induction ts with
  | nil => intro i; rfl
  | cons t rest ih =>
    intro i
    cases t with
    | dice n f m o => simp [configureLoop, configureOne, diceFlatSum, hf, hp, ih (i + 1)]
    | num n o =>
      by_cases hm : opts.multiplyNumeric = true <;>
        simp [configureLoop, configureOne, diceFlatSum, hf, hm, ih (i + 1)]
    | op o => simp [configureLoop, configureOne, diceFlatSum, ih (i + 1)]
    | str s => simp [configureLoop, configureOne, diceFlatSum, ih (i + 1)]
    | paren t2 d => simp [configureLoop, configureOne, diceFlatSum, ih (i + 1)]
    | func t2 d => simp [configureLoop, configureOne, diceFlatSum, ih (i + 1)]

theorem configureDamage_get_lt (r : DamageRoll) (i : Nat) (h : i < r.terms.length) :
    (configureDamage r).terms[i]? =
      (r.terms[i]?).map (fun t => (configureOne r.options i t).1) := by
  have hget : (configureLoop r.options 0 r.terms).1[i]? =
      (r.terms[i]?).map (fun t => (configureOne r.options (0 + i) t).1) :=
    configureLoop_get r.options r.terms 0 i
  simp only [Nat.zero_add] at hget
  simp only [configureDamage]
  split
  · split
    · split
      · rw [List.getElem?_append_left (by simp [configureLoop_length]; omega)]
        rw [List.getElem?_append_left (by simp [configureLoop_length]; omega)]
        exact hget
      · rw [List.getElem?_append_left (by simp [configureLoop_length]; omega)]
        exact hget
    · split
      · rw [List.getElem?_append_left (by simp [configureLoop_length]; omega)]
        rw [List.getElem?_append_left (by simp [configureLoop_length]; omega)]
        rw [List.getElem?_append_left (by simp [configureLoop_length]; omega)]
        exact hget
      · rw [List.getElem?_append_left (by simp [configureLoop_length]; omega)]
        rw [List.getElem?_append_left (by simp [configureLoop_length]; omega)]
        exact hget
  · split
    · rw [List.getElem?_append_left (by simp [configureLoop_length]; omega)]
      exact hget
    · exact hget

/-! Count preservation: `preprocessFormula` never removes a dice or numeric
term (the deleted splice segments consist only of string, parenthetical and
function terms). -/

theorem splice_count_ge (l : List Term) (s d : Nat) (m t : Term)
    (hseg : ((l.drop s).take d).count t = 0) :
    l.count t ≤ (splice l s d m).count t := by
  have hl : l.count t
      = (l.take s).count t + (((l.drop s).take d).count t + ((l.drop s).drop d).count t) := by
    conv_lhs => rw [← List.take_append_drop s l]
    rw [List.count_append]
    congr 1
    conv_lhs => rw [← List.take_append_drop d (l.drop s)]
    rw [List.count_append]
  have hdd : (l.drop s).drop d = l.drop (s + d) := by rw [List.drop_drop]
  rw [hdd] at hl
  unfold splice
  rw [List.count_append, List.count_append]
  rw [hl, hseg]
  omega

theorem suffixStep_count (ts : List Term) (i : Nat) (total : Nat) (det : Bool)
    (t : Term) (hdn : isDiceOrNum t = true)
    (cur : Term) (hcur : ts[i]? = some cur) (hcdn : isDiceOrNum cur = false) :
    ts.count t ≤ (suffixStep ts i total det ts[i+1]?).count t := by
  rcases hn : ts[i+1]? with _ | nt
  · simp [suffixStep, hn]
  cases nt with
  | str s2 =>
    simp only [suffixStep, hn]
    by_cases hre : reDNum s2 = true
    · by_cases hdet : det = true
      · rw [if_pos hre, if_pos hdet]
        apply splice_count_ge
        have hi : i < ts.length := (List.getElem?_eq_some.mp hcur).1
        have hi1 : i + 1 < ts.length := (List.getElem?_eq_some.mp hn).1
        have h1 : ts.drop i = cur :: ts.drop (i + 1) := by
          rw [List.drop_eq_getElem_cons hi, (List.getElem?_eq_some.mp hcur).2]
        have h2 : ts.drop (i + 1) = Term.str s2 :: ts.drop (i + 2) := by
          rw [List.drop_eq_getElem_cons hi1, (List.getElem?_eq_some.mp hn).2]
        rw [h1, h2]
        cases t <;> cases cur <;> simp_all [isDiceOrNum, List.count_cons]
      · rw [if_pos hre, if_neg hdet]
    · rw [if_neg hre]
  | dice n f m o => simp [suffixStep, hn]
  | num n o => simp [suffixStep, hn]
  | op o => simp [suffixStep, hn]
  | paren t2 d2 => simp [suffixStep, hn]
  | func t2 d2 => simp [suffixStep, hn]

theorem preprocessStep_count (ts : List Term) (i : Nat) (t : Term)
    (hdn : isDiceOrNum t = true) :
    ts.count t ≤ (preprocessStep ts i).count t := by
  rcases hg : ts[i]? with _ | cur
  · simp [preprocessStep, hg]
  cases cur with
  | str s =>
    simp only [preprocessStep, hg]
    by_cases hc : (reShorthand s && !(isParenOpt (if i = 0 then none else ts[i-1]?))) = true
    · rw [if_pos hc]
      apply splice_count_ge
      have hi : i < ts.length := (List.getElem?_eq_some.mp hg).1
      have h1 : ts.drop i = Term.str s :: ts.drop (i + 1) := by
        rw [List.drop_eq_getElem_cons hi, (List.getElem?_eq_some.mp hg).2]
      rw [h1]
      cases t <;> simp_all [isDiceOrNum, List.count_cons]
    · rw [if_neg hc]
  | paren total det =>
    simp only [preprocessStep, hg]
    rcases hp : (if i = 0 then none else ts[i-1]?) with _ | pt
    · simp only [hp]
      exact suffixStep_count ts i total det t hdn _ hg rfl
    cases pt with
    | str p =>
      simp only [hp]
      have hi0 : i ≠ 0 := by
        intro h0
        rw [h0] at hp
        simp at hp
      have hprev : ts[i-1]? = some (Term.str p) := by
        rw [if_neg hi0] at hp
        exact hp
      have him1 : i - 1 < ts.length := (List.getElem?_eq_some.mp hprev).1
      have hi : i < ts.length := (List.getElem?_eq_some.mp hg).1
      have hd1 : ts.drop (i - 1) = Term.str p :: ts.drop i := by
        have hidx : i - 1 + 1 = i := by omega
        rw [List.drop_eq_getElem_cons him1, hidx, (List.getElem?_eq_some.mp hprev).2]
      have hd2 : ts.drop i = Term.paren total det :: ts.drop (i + 1) := by
        rw [List.drop_eq_getElem_cons hi, (List.getElem?_eq_some.mp hg).2]
      by_cases hre : reNumD p = true
      · rw [if_pos hre]
        by_cases hdet : det = true
        · rw [if_pos hdet]
          rcases hn : ts[i+1]? with _ | nt
          · simp only [hn]
            apply splice_count_ge
            rw [hd1, hd2]
            cases t <;> simp_all [isDiceOrNum, List.count_cons]
          cases nt with
          | str s2 =>
            simp only [hn]
            apply splice_count_ge
            have hi1 : i + 1 < ts.length := (List.getElem?_eq_some.mp hn).1
            have hd3 : ts.drop (i + 1) = Term.str s2 :: ts.drop (i + 2) := by
              rw [List.drop_eq_getElem_cons hi1, (List.getElem?_eq_some.mp hn).2]
            rw [hd1, hd2, hd3]
            cases t <;> simp_all [isDiceOrNum, List.count_cons]
          | dice n f m o =>
            simp only [hn]
            apply splice_count_ge
            rw [hd1, hd2]
            cases t <;> simp_all [isDiceOrNum, List.count_cons]
          | num n o =>
            simp only [hn]
            apply splice_count_ge
            rw [hd1, hd2]
            cases t <;> simp_all [isDiceOrNum, List.count_cons]
          | op o =>
            simp only [hn]
            apply splice_count_ge
            rw [hd1, hd2]
            cases t <;> simp_all [isDiceOrNum, List.count_cons]
          | paren t2 d2 =>
            simp only [hn]
            apply splice_count_ge
            rw [hd1, hd2]
            cases t <;> simp_all [isDiceOrNum, List.count_cons]
          | func t2 d2 =>
            simp only [hn]
            apply splice_count_ge
            rw [hd1, hd2]
            cases t <;> simp_all [isDiceOrNum, List.count_cons]
        · rw [if_neg hdet]
      · rw [if_neg hre]
        exact suffixStep_count ts i total det t hdn _ hg rfl
    | dice n f m o =>
      simp only [hp]
      exact suffixStep_count ts i total det t hdn _ hg rfl
    | num n o =>
      simp only [hp]
      exact suffixStep_count ts i total det t hdn _ hg rfl
    | op o =>
      simp only [hp]
      exact suffixStep_count ts i total det t hdn _ hg rfl
    | paren t2 d2 =>
      simp only [hp]
      exact suffixStep_count ts i total det t hdn _ hg rfl
    | func t2 d2 =>
      simp only [hp]
      exact suffixStep_count ts i total det t hdn _ hg rfl
  | func total det =>
    simp only [preprocessStep, hg]
    exact suffixStep_count ts i total det t hdn _ hg rfl
  | dice n f m o => simp [preprocessStep, hg]
  | num n o => simp [preprocessStep, hg]
  | op o => simp [preprocessStep, hg]

theorem preprocessLoop_count (t : Term) (hdn : isDiceOrNum t = true) :
    ∀ (fuel : Nat) (ts : List Term) (i : Nat),
      ts.count t ≤ (preprocessLoop fuel ts i).count t := by
  intro fuel
  induction fuel with
  | zero => intro ts i; simp [preprocessLoop]
  | succ f ih =>
    intro ts i
    rw [preprocessLoop]
    by_cases hlt : i < ts.length
    · rw [if_pos hlt]
      exact le_trans (preprocessStep_count ts i t hdn) (ih _ (i + 1))
    · rw [if_neg hlt]

/-! Claim theorems. -/

/-- C5: after construction and after every call to `preprocessFormula`,
`configureDamage`, or `fromData`, the roll's exposed normalized formula equals
the formula recompiled from its current term list. -/
theorem c5_formula_terms_consistent (ts : List Term) (opts : RollOptions) (r : DamageRoll) :
    (mkDamageRoll ts opts).formula = getFormula (mkDamageRoll ts opts).terms
    ∧ (preprocessFormula r).formula = getFormula (preprocessFormula r).terms
    ∧ (configureDamage r).formula = getFormula (configureDamage r).terms
    ∧ (fromData ts opts).formula = getFormula (fromData ts opts).terms := by
  refine ⟨?_, rfl, rfl, rfl⟩
  simp only [mkDamageRoll]
  split <;> split <;> rfl

/-- C6: the fields `MarvelMultiverseWeapon.defineSchema` adds beyond the base
schema are exactly booleans, a required non-nullable integer, and
blank-permitting strings: `melee` and `equipped` are required booleans with
initial values true and false, `range` is a required non-nullable integer with
initial value 0, and every other added field is a string field permitting the
blank string. -/
theorem c6_weapon_schema_fields (base : List (String × FieldSpec)) :
    ((defineSchema base).drop base.length).lookup "melee" = some (.booleanField true true)
    ∧ ((defineSchema base).drop base.length).lookup "equipped" = some (.booleanField true false)
    ∧ ((defineSchema base).drop base.length).lookup "range" = some (.numberField true false true 0)
    ∧ ((defineSchema base).drop base.length).all
        (fun p => match p.2 with
          | .booleanField _ _ => true
          | .numberField _ _ integer _ => integer
          | .stringField _ => true) = true
    ∧ ((defineSchema base).drop base.length).all
        (fun p => p.1 == "melee" || p.1 == "range" || p.1 == "equipped"
          || (match p.2 with | .stringField true => true | _ => false)) = true := by
  have hdrop : (defineSchema base).drop base.length = weaponSchemaFields := by
    unfold defineSchema
    exact List.drop_left base weaponSchemaFields
  rw [hdrop]
  decide

/-- C7: no operation of `DamageRoll` catches or translates an error: a host
parse failure propagates unchanged out of the constructor, and in the static
`toMessage` a failed roll evaluation or a failed message creation propagates
unchanged as the result. -/
theorem c7_errors_propagate :
    (∀ (e : String) (opts : RollOptions), mkDamageRollE (.error e) opts = .error e)
    ∧ (∀ (pre : List Nat) (e : String) (post : List (Except String Nat))
        (c : Except String Nat) (b : Bool),
        toMessageE (pre.map Except.ok ++ Except.error e :: post) c b = .error e)
    ∧ (∀ (xs : List Nat) (e : String),
        toMessageE (xs.map Except.ok) (.error e) true = .error e) := by
  refine ⟨fun e opts => rfl, ?_, ?_⟩
  · intro pre e post c b
    induction pre with
    | nil => rfl
    | cons x rest ih => simpa [toMessageE, List.findSome?] using ih
  · intro xs e
    induction xs with
    | nil => rfl
    | cons x rest ih => simpa [toMessageE, List.findSome?] using ih

/-- C2 counterexample: on the term list `[d, (2), (3), d6]` the deterministic
parenthetical `(3)` is followed by the string term `d6` matching `^d[0-9]*$`,
yet `preprocessFormula` leaves the pair unmerged: the prefix merge of `d` with
`(2)` shifts `(3)` into the already-visited position, and the loop index
skips it. -/
theorem c2_counterexample :
    (preprocessFormula ⟨[Term.str "d", Term.paren 2 true, Term.paren 3 true, Term.str "d6"],
        "", {}⟩).terms
      = [Term.dice 1 2 "" ⟨none, false⟩, Term.paren 3 true, Term.str "d6"]
    ∧ reDNum "d6" = true := by
  exact ⟨by decide, by decide⟩

/-- C2 amended: `preprocessFormula` applies the three merge rules in one
left-to-right pass over the mutating list; each merge consumes its source
terms, and after a prefix merge the scan resumes one position past the merged
term, skipping the term that slides into that position (`mergePass` states
exactly this pass), with the formula recompiled and the roll marked
preprocessed. -/
theorem c2_single_pass_merge (r : DamageRoll) :
    (preprocessFormula r).terms = mergePass [] r.terms
    ∧ (preprocessFormula r).formula = getFormula (mergePass [] r.terms)
    ∧ (preprocessFormula r).options.preprocessed = true := by
  have h := loop_eq_mergePass [] r.terms r.terms.length (le_refl _)
  simp only [List.reverse_nil, List.nil_append, List.length_nil] at h
  exact ⟨h, congrArg getFormula h, rfl⟩

/-- C1 counterexample: with `options.fantastic = true` and a
`fantasticBonusDice` of 1 (an option the claim does not exclude), the single
`1d6` term is not doubled to `2d6`: `alter` first adds the bonus die and then
doubles, yielding 4 dice. -/
theorem c1_counterexample :
    (mkDamageRoll [Term.dice 1 6 "" ⟨none, false⟩]
        { fantastic := some true, fantasticBonusDice := 1 }).terms
      = [Term.dice 4 6 "" ⟨some 1, true⟩]
    ∧ 4 ≠ 2 * 1 := by
  exact ⟨by decide, by decide⟩

/-- C1 amended: when `options.fantastic` is true and no `fantasticMultiplier`,
`powerfulfantastic`, or `fantasticBonusDice` option is given, `configureDamage`
doubles the dice count of every dice term and marks it with
`options.fantastic = true`. -/
theorem c1_fantastic_doubles_dice (r : DamageRoll)
    (hf : r.options.fantastic = some true)
    (hm : r.options.fantasticMultiplier = none)
    (hp : r.options.powerfulfantastic = false)
    (hb : r.options.fantasticBonusDice = 0) :
    ∀ (i n f : Nat) (m : String) (o : TermOptions),
      r.terms[i]? = some (.dice n f m o) → o.baseNumber = none →
      (configureDamage r).terms[i]? = some (.dice (n * 2) f m ⟨some n, true⟩) := by
  intro i n f m o hi hbase
  have hlt : i < r.terms.length := (List.getElem?_eq_some.mp hi).1
  rw [configureDamage_get_lt r i hlt, hi]
  simp [configureOne, hf, hm, hp, hb, hbase]

/-- C1 witness: a freshly built `1d6` fantastic roll has its dice term doubled
to `2d6` and marked fantastic. -/
theorem c1_witness :
    (configureDamage ⟨[Term.dice 1 6 "" ⟨none, false⟩], "1d6",
        { fantastic := some true }⟩).terms[0]?
      = some (Term.dice 2 6 "" ⟨some 1, true⟩) := by
  have h := c1_fantastic_doubles_dice
    ⟨[Term.dice 1 6 "" ⟨none, false⟩], "1d6", { fantastic := some true }⟩
    rfl rfl rfl rfl 0 1 6 "" ⟨none, false⟩ rfl rfl
  simpa using h

/-- C3 counterexample: with `options.fantastic = true` but `multiplyNumeric`
unset, `configureDamage` leaves the numeric term 3 unchanged instead of
multiplying it by the default fantastic multiplier 2. -/
theorem c3_counterexample :
    (configureDamage ⟨[Term.num 3 ⟨none, false⟩], "3",
        { fantastic := some true }⟩).terms
      = [Term.num 3 ⟨none, false⟩]
    ∧ (3 : Nat) ≠ 3 * 2 := by
  exact ⟨by decide, by decide⟩

/-- C3 amended: when `options.fantastic` is true and `options.multiplyNumeric`
is set, `configureDamage` multiplies every numeric term by the fantastic
multiplier (default 2) and marks it fantastic. -/
theorem c3_multiply_numeric (r : DamageRoll)
    (hf : r.options.fantastic = some true)
    (hmn : r.options.multiplyNumeric = true) :
    ∀ (i n : Nat) (o : TermOptions),
      r.terms[i]? = some (.num n o) → o.baseNumber = none →
      (configureDamage r).terms[i]? =
        some (.num (n * (r.options.fantasticMultiplier.getD 2)) ⟨some n, true⟩) := by
  intro i n o hi hbase
  have hlt : i < r.terms.length := (List.getElem?_eq_some.mp hi).1
  rw [configureDamage_get_lt r i hlt, hi]
  simp [configureOne, hf, hmn, hbase]

/-- C3 witness: a numeric term 3 in a fantastic roll with `multiplyNumeric`
set becomes 6. -/
theorem c3_witness :
    (configureDamage ⟨[Term.num 3 ⟨none, false⟩], "3",
        { fantastic := some true, multiplyNumeric := true }⟩).terms[0]?
      = some (Term.num 6 ⟨some 3, true⟩) := by
  have h := c3_multiply_numeric
    ⟨[Term.num 3 ⟨none, false⟩], "3", { fantastic := some true, multiplyNumeric := true }⟩
    rfl rfl 0 3 ⟨none, false⟩ rfl rfl
  simpa using h

/-- Take of the configured term list up to the original length recovers the
per-term processed prefix. -/
theorem configureDamage_take (s : DamageRoll) :
    (configureDamage s).terms.take s.terms.length = (configureLoop s.options 0 s.terms).1 := by
  have hlen : (configureLoop s.options 0 s.terms).1.length = s.terms.length :=
    configureLoop_length _ _ _
  simp only [configureDamage]
  split
  · split
    · split
      · rw [List.take_append_of_le_length (by simp only [List.length_append, hlen]; omega)]
        rw [List.take_append_of_le_length (by simp only [List.length_append, hlen]; omega)]
        rw [← hlen, List.take_length]
      · rw [List.take_append_of_le_length (by simp only [List.length_append, hlen]; omega)]
        rw [← hlen, List.take_length]
    · split
      · rw [List.take_append_of_le_length (by simp only [List.length_append, hlen]; omega)]
        rw [List.take_append_of_le_length (by simp only [List.length_append, hlen]; omega)]
        rw [List.take_append_of_le_length (by simp only [List.length_append, hlen]; omega)]
        rw [← hlen, List.take_length]
      · rw [List.take_append_of_le_length (by simp only [List.length_append, hlen]; omega)]
        rw [List.take_append_of_le_length (by simp only [List.length_append, hlen]; omega)]
        rw [← hlen, List.take_length]
  · split
    · rw [List.take_append_of_le_length (by simp only [List.length_append, hlen]; omega)]
      rw [← hlen, List.take_length]
    · rw [← hlen, List.take_length]

/-- Reconfiguring an already-configured prefix reproduces it unchanged. -/
theorem configureLoop_take_helper (opts : RollOptions) (ts D : List Term) :
    ((configureLoop { opts with configured := true } 0 ((configureLoop opts 0 ts).1 ++ D)).1).take ts.length
      = (configureLoop opts 0 ts).1 := by
  rw [configureLoop_config, configureLoop_append, configureLoop_idem]
  rw [List.take_append_of_le_length (by simp [configureLoop_length])]
  rw [← configureLoop_length opts 0 ts, List.take_length]

/-- C8: dice- and numeric-term scaling in `configureDamage` is idempotent:
each call restores `number` from the recorded `baseNumber` before scaling, so
calling `configureDamage` twice leaves every term of the original list equal
to what a single call produces. -/
theorem c8_configure_idempotent (r : DamageRoll) :
    (configureDamage (configureDamage r)).terms.take r.terms.length
      = (configureDamage r).terms.take r.terms.length := by
  have h1 : (configureDamage r).terms.take r.terms.length = (configureLoop r.options 0 r.terms).1 :=
    configureDamage_take r
  have hsplit : (configureDamage r).terms
      = (configureLoop r.options 0 r.terms).1 ++ (configureDamage r).terms.drop r.terms.length := by
    conv_lhs => rw [← List.take_append_drop r.terms.length (configureDamage r).terms]
    rw [h1]
  have hlen1 : (configureLoop r.options 0 r.terms).1.length = r.terms.length :=
    configureLoop_length _ _ _
  have hmono : r.terms.length ≤ (configureDamage r).terms.length := by
    conv_rhs => rw [hsplit]
    simp only [List.length_append, hlen1]
    omega
  have h2 : (configureDamage (configureDamage r)).terms.take (configureDamage r).terms.length
      = (configureLoop (configureDamage r).options 0 (configureDamage r).terms).1 :=
    configureDamage_take _
  have htt : (configureDamage (configureDamage r)).terms.take r.terms.length
      = ((configureDamage (configureDamage r)).terms.take (configureDamage r).terms.length).take
          r.terms.length := by
    rw [List.take_take, Nat.min_eq_left hmono]
  rw [htt, h2]
  have hopts : (configureDamage r).options = { r.options with configured := true } := rfl
  rw [hopts]
  conv_lhs => rw [hsplit]
  rw [configureLoop_take_helper]
  exact h1.symm

/-- C4: with `powerfulfantastic` set, on a fantastic hit every dice term is
rescaled by the multiplier reduced by one (floored at one), each dice term's
restored count times faces accumulates into the flat bonus, and when that
bonus is positive an operator plus term followed by a numeric term equal to
the bonus is appended to the end of the term list. -/
theorem c4_powerfulfantastic (r : DamageRoll)
    (hp : r.options.powerfulfantastic = true)
    (hf : r.options.fantastic = some true)
    (hd : r.options.fantasticBonusDamage = none)
    (hb : r.options.fantasticBonusDice = 0) :
    (∀ (i n f : Nat) (m : String) (o : TermOptions),
        r.terms[i]? = some (.dice n f m o) →
        (configureDamage r).terms[i]? =
          some (.dice ((o.baseNumber.getD n) * max 1 (r.options.fantasticMultiplier.getD 2 - 1)) f m
            ⟨some (o.baseNumber.getD n), true⟩))
    ∧ (configureDamage r).terms.drop r.terms.length =
        (if 0 < diceFlatSum r.terms
          then [.op "+", .num (diceFlatSum r.terms) ⟨none, false⟩] else []) := by
  constructor
  · intro i n f m o hi
    have hlt : i < r.terms.length := (List.getElem?_eq_some.mp hi).1
    rw [configureDamage_get_lt r i hlt, hi]
    simp [configureOne, hf, hp, hb]
  · have hq2 : (configureLoop r.options 0 r.terms).2 = diceFlatSum r.terms :=
      configureLoop_contrib r.options hf hp r.terms 0
    have hlen : (configureLoop r.options 0 r.terms).1.length = r.terms.length :=
      configureLoop_length _ _ _
    simp only [configureDamage, hf, hd, hp, hq2, true_and]
    by_cases hpos : 0 < diceFlatSum r.terms
    · rw [if_pos hpos, if_pos hpos]
      rw [← hlen, List.drop_left]
    · rw [if_neg hpos, if_neg hpos]
      rw [← hlen, List.drop_length]

/-- C4 witness: a `2d6` powerful-fantastic roll keeps 2 dice (multiplier 2
reduced to 1) and appends the maximized flat bonus 12. -/
theorem c4_witness :
    (configureDamage ⟨[Term.dice 2 6 "" ⟨none, false⟩], "2d6",
        { fantastic := some true, powerfulfantastic := true }⟩).terms[0]?
      = some (Term.dice 2 6 "" ⟨some 2, true⟩)
    ∧ (configureDamage ⟨[Term.dice 2 6 "" ⟨none, false⟩], "2d6",
        { fantastic := some true, powerfulfantastic := true }⟩).terms.drop 1
      = [Term.op "+", Term.num 12 ⟨none, false⟩] := by
  have h := c4_powerfulfantastic
    ⟨[Term.dice 2 6 "" ⟨none, false⟩], "2d6",
      { fantastic := some true, powerfulfantastic := true }⟩ rfl rfl rfl rfl
  constructor
  · have h1 := h.1 0 2 6 "" ⟨none, false⟩ rfl
    simpa using h1
  · have h2 := h.2
    simpa [diceFlatSum] using h2

/-- The bonus-dice option does not change the processing of terms at positions
past zero. -/
theorem configureOne_bonus_pos (opts : RollOptions) (i : Nat) (t : Term) (hi : i ≠ 0) :
    configureOne { opts with fantasticBonusDice := 0 } i t = configureOne opts i t := by
  cases t <;> simp [configureOne, hi]

theorem configureLoop_bonus (opts : RollOptions) :
    ∀ (ts : List Term) (i : Nat), i ≠ 0 →
      configureLoop { opts with fantasticBonusDice := 0 } i ts = configureLoop opts i ts := by
  intro ts
  induction ts with
  | nil => intro i _; rfl
  | cons t rest ih =>
    intro i hi
    simp only [configureLoop]
    rw [configureOne_bonus_pos opts i t hi, ih (i + 1) (by omega)]

/-- C10: `fantasticBonusDice` only ever augments the term at index 0: past
index 0 the loop is independent of the option, and when the first term is not
a dice term, zeroing the option leaves the configured term list unchanged, so
no bonus dice are added to any term. -/
theorem c10_bonus_dice_first_term_only (r : DamageRoll)
    (h : headIsDice r.terms = false) :
    (configureDamage r).terms
      = (configureDamage { r with options := { r.options with fantasticBonusDice := 0 } }).terms
    ∧ ∀ (ts : List Term) (i : Nat), i ≠ 0 →
        configureLoop { r.options with fantasticBonusDice := 0 } i ts
          = configureLoop r.options i ts := by
  refine ⟨?_, configureLoop_bonus r.options⟩
  have hloop : configureLoop { r.options with fantasticBonusDice := 0 } 0 r.terms
      = configureLoop r.options 0 r.terms := by
    cases hts : r.terms with
    | nil => rfl
    | cons t rest =>
      rw [hts] at h
      simp only [configureLoop]
      rw [configureLoop_bonus r.options rest 1 (by omega)]
      cases t with
      | dice n f m o => simp [headIsDice] at h
      | num n o => rfl
      | op o => rfl
      | str s => rfl
      | paren t2 d => rfl
      | func t2 d => rfl
  simp only [configureDamage, hloop]

/-- C10 witness: with a numeric first term, a bonus of 5 dice changes
nothing. -/
theorem c10_witness :
    headIsDice [Term.num 3 ⟨none, false⟩, Term.op "+", Term.dice 2 6 "" ⟨none, false⟩] = false
    ∧ (configureDamage ⟨[Term.num 3 ⟨none, false⟩, Term.op "+", Term.dice 2 6 "" ⟨none, false⟩],
          "", { fantastic := some true, fantasticBonusDice := 5 }⟩).terms
      = (configureDamage { (⟨[Term.num 3 ⟨none, false⟩, Term.op "+", Term.dice 2 6 "" ⟨none, false⟩],
          "", { fantastic := some true, fantasticBonusDice := 5 }⟩ : DamageRoll) with
          options := { (⟨[Term.num 3 ⟨none, false⟩, Term.op "+", Term.dice 2 6 "" ⟨none, false⟩],
          "", { fantastic := some true, fantasticBonusDice := 5 }⟩ : DamageRoll).options with
          fantasticBonusDice := 0 } }).terms := by
  exact ⟨rfl, (c10_bonus_dice_first_term_only
    ⟨[Term.num 3 ⟨none, false⟩, Term.op "+", Term.dice 2 6 "" ⟨none, false⟩],
      "", { fantastic := some true, fantasticBonusDice := 5 }⟩ rfl).1⟩

/-- C9: when `options.fantastic` is undefined, construction runs only the
formula preprocessing and never invokes `configureDamage`: the result is
exactly the preprocessed (or untouched) base roll, `options.configured` is not
set, and every dice or numeric term of the input survives unchanged (its
occurrence count does not decrease). -/
theorem c9_no_fantastic_skips_configure (ts : List Term) (opts : RollOptions)
    (h : opts.fantastic = none) :
    mkDamageRoll ts opts
        = (if opts.preprocessed = false then preprocessFormula (baseRoll ts opts)
            else baseRoll ts opts)
      ∧ (mkDamageRoll ts opts).options.configured = opts.configured
      ∧ ∀ t : Term, isDiceOrNum t = true →
          ts.count t ≤ ((mkDamageRoll ts opts).terms).count t := by
  have h1 : mkDamageRoll ts opts
      = if opts.preprocessed = false then preprocessFormula (baseRoll ts opts)
        else baseRoll ts opts := by
    simp only [mkDamageRoll]
    by_cases hpre : opts.preprocessed = false
    · rw [if_pos (show (baseRoll ts opts).options.preprocessed = false from hpre)]
      rw [if_neg (show ¬((preprocessFormula (baseRoll ts opts)).options.fantastic ≠ none
          ∧ (preprocessFormula (baseRoll ts opts)).options.configured = false) by
        simp [preprocessFormula, baseRoll, h])]
      rw [if_pos hpre]
    · rw [if_neg (show ¬(baseRoll ts opts).options.preprocessed = false from hpre)]
      rw [if_neg (show ¬((baseRoll ts opts).options.fantastic ≠ none
          ∧ (baseRoll ts opts).options.configured = false) by simp [baseRoll, h])]
      rw [if_neg hpre]
  refine ⟨h1, ?_, ?_⟩
  · rw [h1]
    split <;> simp [preprocessFormula, baseRoll]
  · intro t hdn
    rw [h1]
    split
    · simp only [preprocessFormula, baseRoll]
      exact preprocessLoop_count t hdn _ _ _
    · simp [baseRoll]

/-- C9 witness: with no fantastic option, a mixed term list keeps its numeric
term and `configured` stays false. -/
theorem c9_witness :
    (mkDamageRoll [Term.str "d6", Term.op "+", Term.num 2 ⟨none, false⟩] {}).options.configured
        = false
    ∧ List.count (Term.num 2 ⟨none, false⟩)
          [Term.str "d6", Term.op "+", Term.num 2 ⟨none, false⟩]
        ≤ List.count (Term.num 2 ⟨none, false⟩)
          (mkDamageRoll [Term.str "d6", Term.op "+", Term.num 2 ⟨none, false⟩] {}).terms := by
  have h := c9_no_fantastic_skips_configure
    [Term.str "d6", Term.op "+", Term.num 2 ⟨none, false⟩] {} rfl
  exact ⟨h.2.1, h.2.2 _ rfl⟩
